import Mathlib

/-!
# Verification of the cinema and ramen-chef thread simulations

Shallow embedding of `src/code/cinema.c` and `src/code/chef.c`.

Every critical section of the C code (the code between a `pthread_mutex_lock`
and the matching unlock or `pthread_cond_wait`) is one atomic transition of the
shared state.  A thread blocked in `pthread_cond_wait` may be woken at any time
(broadcast, signal or spurious wake-up), so a waiting thread is simply a thread
that may run its loop test again.  The files `roomN.txt` and `table.txt` are
the shared memory cells of the programs and are modelled by their contents.
-/

namespace Cinema

/-! ## Data model of cinema.c -/

/-- The three integers `occupancy capacity in_projection` stored in a room file. -/
structure Room where
  occupancy : Int
  capacity : Int
  in_projection : Int
deriving DecidableEq, Repr

/-- The file system as seen by the program: `fs k` is the content of
`room<k>.txt`, or `none` when the file does not exist, which is when
`fopen(filename, "r+")` fails.  A room file always holds three integers, since
only this program writes it. -/
abbrev Files := Nat → Option Room

/-- The field `cinema.capacity = {4, 5, 7}`. -/
def capacity : List Int := [4, 5, 7]

/-- The effect of `rewind(file); fprintf(file, "%d %d %d\n", ...)` on `room<k>.txt`. -/
def write_room (fs : Files) (k : Nat) (r : Room) : Files :=
  fun j => if j = k then some r else fs j

/-- Shared state guarded by `cinema.lock`: the room files and the global
`active_projections`. -/
structure Shared where
  files : Files
  active_projections : Int

/-- The function `initialize_rooms`: for `i = 0, 1, 2` the file `room<i+1>.txt`
is (re)created with the line `0 capacity[i] 0` (the run in which a
`fopen(filename, "w")` fails ends in `exit(1)` before any thread exists).  The
global `active_projections` has its initialiser `3`. -/
def initialize_rooms (fs0 : Files) : Shared :=
  { files := (List.range 3).foldl
      (fun fs i => write_room fs (i + 1) ⟨0, capacity.getD i 0, 0⟩) fs0
    active_projections := 3 }

/-- How one pass of the `while (1)` loop of `enter_room` ends. -/
inductive Pass where
  /-- Line 68: `active_projections == 0`, unlock and return. -/
  | rejected
  /-- Line 75: `fopen` failed, unlock and return. -/
  | open_error
  /-- Line 85: the customer entered, `break`. -/
  | admitted
  /-- Line 97: `pthread_cond_wait`, then the loop is run again. -/
  | wait
deriving DecidableEq, Repr

/-- One pass of the loop of `enter_room` (lines 67-98) on the value of
`active_projections` and the content of the selected room file.  Returns how
the pass ends and the new content of the file. -/
def enter_room_pass (active_projections : Int) (file : Option Room) :
    Pass × Option Room :=
  if active_projections = 0 then (Pass.rejected, file)
  else
    match file with
    | none => (Pass.open_error, none)
    | some r =>
      if r.occupancy < r.capacity ∧ r.in_projection = 0 then
        (Pass.admitted, some { r with occupancy := r.occupancy + 1 })
      else (Pass.wait, some r)

/-- One pass of `enter_room` by a customer whose `rand()` call returned `rnd`,
so that `room_id = rnd % 3 + 1`, on the shared state. -/
def enter_room (rnd : Nat) (s : Shared) : Pass × Shared :=
  let room_id := rnd % 3 + 1
  match enter_room_pass s.active_projections (s.files room_id) with
  | (Pass.admitted, some r) => (Pass.admitted, { s with files := write_room s.files room_id r })
  | (p, _) => (p, s)

/-- First critical section of `start_projection` (lines 111-135): the room
record is rewritten with `in_projection = 1`.  `none` is the `fopen` error
return of line 117. -/
def start_projection_begin (room_id : Nat) (s : Shared) : Option Shared :=
  match s.files room_id with
  | none => none
  | some r => some { s with files := write_room s.files room_id { r with in_projection := 1 } }

/-- Second critical section of `start_projection` (lines 139-160): the room
record is rewritten with `in_projection = 0` and `active_projections` is
decremented.  `none` is the `fopen` error return of line 142. -/
def start_projection_end (room_id : Nat) (s : Shared) : Option Shared :=
  match s.files room_id with
  | none => none
  | some r =>
    some { files := write_room s.files room_id { r with in_projection := 0 }
           active_projections := s.active_projections - 1 }

/-! ### Unconstrained sequences of critical sections -/

/-- A critical section of cinema.c, with the data that selects the room. -/
inductive Op where
  /-- A pass of `enter_room` by a customer whose `rand()` returned `rnd`. -/
  | enter (rnd : Nat)
  /-- The first critical section of `start_projection` for room `i + 1`. -/
  | start (i : Nat)
  /-- The second critical section of `start_projection` for room `i + 1`. -/
  | finish (i : Nat)
deriving DecidableEq, Repr

/-- Effect of one critical section on the shared state (an error return
leaves it unchanged). -/
def apply_op (s : Shared) : Op → Shared
  | Op.enter rnd => (enter_room rnd s).2
  | Op.start i => (start_projection_begin (i + 1) s).getD s
  | Op.finish i => (start_projection_end (i + 1) s).getD s

/-- Effect of a sequence of critical sections. -/
def apply_ops (ops : List Op) (s : Shared) : Shared := ops.foldl apply_op s

/-! ### The threads of `main` -/

/-- Control point of a `start_projection` thread. -/
inductive ProjPc where
  /-- Created by `main`, first critical section not run yet. -/
  | created
  /-- Between the two critical sections, in `sleep(2)`. -/
  | sleeping
  /-- Returned at line 161, after the session concluded. -/
  | finished
  /-- Returned through one of the `fopen` error branches. -/
  | failed
deriving DecidableEq, Repr

/-- State of the whole program after `initialize_rooms`: the shared state and
the control point of thread `projections[i]` (whose `room_id` is `i + 1`).
Customer threads carry no state of their own besides their room choice, which
is supplied with each of their passes. -/
structure State where
  shared : Shared
  proj : Nat → ProjPc

/-- What the scheduler runs next. -/
inductive Label where
  /-- One pass of the loop of `enter_room` by a customer thread that has not
  returned, whose `rand()` call returned `rnd`. -/
  | customer (rnd : Nat)
  /-- The next critical section of thread `projections[i]`. -/
  | projection (i : Nat)
deriving DecidableEq, Repr

/-- Update of one thread's control point. -/
def set_pc (proj : Nat → ProjPc) (i : Nat) (pc : ProjPc) : Nat → ProjPc :=
  fun j => if j = i then pc else proj j

/-- One scheduling step.  `main` creates `projections[i]` for `i < 3` only; a
thread that has returned does nothing. -/
def step (s : State) : Label → State
  | Label.customer rnd => { s with shared := (enter_room rnd s.shared).2 }
  | Label.projection i =>
    if i < 3 then
      match s.proj i with
      | ProjPc.created =>
        match start_projection_begin (i + 1) s.shared with
        | none => { s with proj := set_pc s.proj i ProjPc.failed }
        | some sh => { shared := sh, proj := set_pc s.proj i ProjPc.sleeping }
      | ProjPc.sleeping =>
        match start_projection_end (i + 1) s.shared with
        | none => { s with proj := set_pc s.proj i ProjPc.failed }
        | some sh => { shared := sh, proj := set_pc s.proj i ProjPc.finished }
      | _ => s
    else s

/-- Execution of a schedule. -/
def run (sched : List Label) (s : State) : State := sched.foldl step s

/-- State in which `main` creates the threads. -/
def init (fs0 : Files) : State :=
  { shared := initialize_rooms fs0, proj := fun _ => ProjPc.created }

/-- The three projection threads run one after the other, each to its end. -/
def all_sessions : List Label :=
  [Label.projection 0, Label.projection 0, Label.projection 1, Label.projection 1,
    Label.projection 2, Label.projection 2]

/-- Number of rooms whose session has concluded. -/
def finished_count (s : State) : Nat :=
  ((List.range 3).filter (fun i => s.proj i = ProjPc.finished)).length

/-! ### Several customers arriving at one room -/

/-- A room file together with the customers that selected this room:
`customers[i]` is `none` while customer `i` has not run a pass yet, and
otherwise how its last pass ended. -/
structure Arrivals where
  file : Option Room
  customers : List (Option Pass)

/-- Customer `e.1` runs one pass of its loop while `active_projections` has
the value `e.2`.  Only a customer that is still inside `enter_room` (not yet
arrived at the lock, or waiting on the condition variable) can do so. -/
def arrive (a : Arrivals) (e : Nat × Int) : Arrivals :=
  match a.customers.get? e.1 with
  | some none | some (some Pass.wait) =>
    let res := enter_room_pass e.2 a.file
    { file := res.2, customers := a.customers.set e.1 (some res.1) }
  | _ => a

/-- Initial situation of `n` customers in front of a room file. -/
def arrivals_init (r : Room) (n : Nat) : Arrivals :=
  { file := some r, customers := List.replicate n none }

/-! ### Predicates on states -/

/-- Every room file exists and satisfies `0 ≤ occupancy ≤ capacity`, with one
of the capacities of the table. -/
def RoomsOk (sh : Shared) : Prop :=
  ∀ i, i < 3 → ∃ r, sh.files (i + 1) = some r ∧ 0 ≤ r.occupancy ∧
    r.occupancy ≤ r.capacity ∧ r.capacity ∈ capacity

/-- Invariant of the executions: the room files are in order and the counter
is 3 minus the number of concluded sessions. -/
def Inv (s : State) : Prop :=
  RoomsOk s.shared ∧ s.shared.active_projections = 3 - (finished_count s : Int)

/-- Invariant of the arrivals at a room of capacity `c` whose session has not
started: the occupancy is the number of admitted customers, at most `c`;
nobody was turned away; and somebody waits only if the room is full. -/
def ArrInv (c n : Nat) (a : Arrivals) : Prop :=
  a.customers.length = n ∧
  a.file = some ⟨(a.customers.count (some Pass.admitted) : Nat), (c : Nat), 0⟩ ∧
  a.customers.count (some Pass.admitted) ≤ c ∧
  (∀ x ∈ a.customers, x = none ∨ x = some Pass.wait ∨ x = some Pass.admitted) ∧
  (some Pass.wait ∈ a.customers → a.customers.count (some Pass.admitted) = c)

end Cinema

namespace Chef

/-! ## Data model of chef.c -/

/-- Macro `NUM_CHEFS`. -/
def NUM_CHEFS : Nat := 3

/-- Macro `ROUNDS`, the initialiser of `remaining_rounds`. -/
def ROUNDS : Int := 8

/-- Enumerator `NOODLES` of `Ingredient`. -/
def NOODLES : Nat := 0

/-- Enumerator `WATER` of `Ingredient`. -/
def WATER : Nat := 1

/-- Enumerator `SEEDS` of `Ingredient`. -/
def SEEDS : Nat := 2

/-- The array `ingredients` of `main`: chef thread `i` gets `ingredients[i]`. -/
def ingredients : List Nat := [NOODLES, WATER, SEEDS]

/-- Content of `table.txt` (`none` when the file does not exist). -/
abbrev Table := Option (Nat × Nat)

/-- The test of line 159 of `chef`: the pair is useful for this chef. -/
def usable (my_ingredient ing1 ing2 : Nat) : Bool :=
  ing1 != my_ingredient && ing2 != my_ingredient

/-- The function `put_on_table` on the table file: `none` while the file
exists (the caller waits at line 40), otherwise the file is created with the
two ingredients. -/
def put_on_table (ing1 ing2 : Nat) (table : Table) : Option Table :=
  match table with
  | some _ => none
  | none => some (some (ing1, ing2))

/-- The function `read_table`: `none` is the return value 0 (no file),
otherwise the two ingredients read from the file, which is left in place. -/
def read_table (table : Table) : Option (Nat × Nat) := table

/-- The function `clear_table`: the file is removed. -/
def clear_table (_table : Table) : Table := none

/-! ### Sequential reading of `master_chef` -/

/-- The `do ... while (ing1 == ing2)` loop of lines 118-120.  `rand k` is the
value returned by the `k`-th call of `rand()`; the loop starts at call number
`pos`.  Returns `ing2` and the number of the next call, or `none` when the loop
is still running after `fuel` draws. -/
def draw_ing2 (rand : Nat → Nat) (ing1 : Nat) : Nat → Nat → Option (Nat × Nat)
  | 0, _ => none
  | fuel + 1, pos =>
    let ing2 := rand pos % NUM_CHEFS
    if ing1 = ing2 then draw_ing2 rand ing1 fuel (pos + 1) else some (ing2, pos + 1)

/-- Lines 116-120: the two ingredients of a round, with the number of the next
call of `rand()`. -/
def draw_pair (rand : Nat → Nat) (fuel pos : Nat) : Option ((Nat × Nat) × Nat) :=
  let ing1 := rand pos % NUM_CHEFS
  match draw_ing2 rand ing1 fuel (pos + 1) with
  | none => none
  | some (ing2, next) => some ((ing1, ing2), next)

/-- The loop of `master_chef` (lines 103-126), every `put_on_table` call
returning.  The result is the list of argument pairs of the `put_on_table`
calls made, in order, and the value of `remaining_rounds` at the `break`
(`none` when the thread is still running after `fuel` iterations). -/
def master_chef (rand : Nat → Nat) : Nat → Int → Nat → List (Nat × Nat) × Option Int
  | 0, _, _ => ([], none)
  | fuel + 1, remaining_rounds, pos =>
    if remaining_rounds ≤ 0 then ([], some remaining_rounds)
    else
      match draw_pair rand fuel pos with
      | none => ([], none)
      | some (pair, next) =>
        let rest := master_chef rand fuel (remaining_rounds - 1) next
        (pair :: rest.1, rest.2)

/-! ### The threads and their interleaving -/

/-- Control point of the `master_chef` thread. -/
inductive MasterPc where
  /-- At line 104, about to lock and test `remaining_rounds`. -/
  | top
  /-- In the `do ... while` loop of lines 118-120 with `ing1` drawn. -/
  | drawing (ing1 : Nat)
  /-- In `put_on_table(ing1, ing2)`, before the write of line 50. -/
  | placing (ing1 ing2 : Nat)
  /-- After the `break` of line 109. -/
  | exited
deriving DecidableEq, Repr

/-- Control point of a `chef` thread. -/
inductive ChefPc where
  /-- At line 139, or waiting at line 143. -/
  | top
  /-- After the unlock of line 151, about to call `read_table`. -/
  | reading
  /-- The pair was usable, about to call `clear_table` (lines 160-168). -/
  | cooking
  /-- After the `break` of line 148. -/
  | exited
deriving DecidableEq, Repr

/-- The critical section that a chef with ingredient `my_ingredient` runs next
from control point `pc`, on the table and `remaining_rounds`.  Returns the new
control point and the new table. -/
def chef_step (my_ingredient : Nat) (remaining_rounds : Int) (pc : ChefPc) (table : Table) :
    ChefPc × Table :=
  match pc with
  | ChefPc.top =>
    if table = none ∧ remaining_rounds > 0 then (ChefPc.top, table)
    else if remaining_rounds ≤ 0 ∧ table = none then (ChefPc.exited, table)
    else (ChefPc.reading, table)
  | ChefPc.reading =>
    match read_table table with
    | none => (ChefPc.top, table)
    | some (ing1, ing2) =>
      if usable my_ingredient ing1 ing2 then (ChefPc.cooking, table) else (ChefPc.top, table)
  | ChefPc.cooking => (ChefPc.top, clear_table table)
  | ChefPc.exited => (ChefPc.exited, table)

/-- One pass of the `while (1)` loop of `chef` run without interference from
the other threads, starting at line 139. -/
def chef_pass (my_ingredient : Nat) (remaining_rounds : Int) (table : Table) : ChefPc × Table :=
  match chef_step my_ingredient remaining_rounds ChefPc.top table with
  | (ChefPc.reading, t) =>
    match chef_step my_ingredient remaining_rounds ChefPc.reading t with
    | (ChefPc.cooking, t) => chef_step my_ingredient remaining_rounds ChefPc.cooking t
    | res => res
  | res => res

/-- State of the program: the table file, `remaining_rounds` and the control
points of the master chef and of chef thread `i` (ingredient `ingredients[i]`). -/
structure State where
  table : Table
  remaining_rounds : Int
  master : MasterPc
  chefs : Nat → ChefPc

/-- What the scheduler runs next. -/
inductive Label where
  /-- The master chef runs up to its next unlock or `rand()` call; `r` is
  the value `rand()` returns if it is called. -/
  | master (r : Nat)
  /-- Chef thread `i` runs its next critical section. -/
  | chef (i : Nat)
deriving DecidableEq, Repr

/-- Next move of the `master_chef` thread. -/
def master_step (r : Nat) (s : State) : State :=
  match s.master with
  | MasterPc.top =>
    if s.remaining_rounds ≤ 0 then { s with master := MasterPc.exited }
    else { s with remaining_rounds := s.remaining_rounds - 1
                  master := MasterPc.drawing (r % NUM_CHEFS) }
  | MasterPc.drawing ing1 =>
    let ing2 := r % NUM_CHEFS
    if ing1 = ing2 then s else { s with master := MasterPc.placing ing1 ing2 }
  | MasterPc.placing ing1 ing2 =>
    match put_on_table ing1 ing2 s.table with
    | none => s
    | some table => { s with table := table, master := MasterPc.top }
  | MasterPc.exited => s

/-- Update of one chef's control point. -/
def set_pc (chefs : Nat → ChefPc) (i : Nat) (pc : ChefPc) : Nat → ChefPc :=
  fun j => if j = i then pc else chefs j

/-- One scheduling step.  `main` creates chef threads `i < NUM_CHEFS` only. -/
def step (s : State) : Label → State
  | Label.master r => master_step r s
  | Label.chef i =>
    if i < NUM_CHEFS then
      let res := chef_step (ingredients.getD i 0) s.remaining_rounds (s.chefs i) s.table
      { s with table := res.2, chefs := set_pc s.chefs i res.1 }
    else s

/-- Execution of a schedule. -/
def run (sched : List Label) (s : State) : State := sched.foldl step s

/-- State in which `main` creates the threads, for `remaining_rounds = R` and
no `table.txt`. -/
def init (R : Int) : State :=
  { table := none, remaining_rounds := R, master := MasterPc.top, chefs := fun _ => ChefPc.top }

/-- A full round in which the pair `(0, 1)` is produced and chef 2 prepares
ramen: decrement and first draw, second draw, write, then the three critical
sections of chef 2. -/
def full_round : List Label :=
  [Label.master 0, Label.master 1, Label.master 0, Label.chef 2, Label.chef 2, Label.chef 2]

/-- Seven full rounds, then the eighth decrement and draws. -/
def last_round_started : List Label :=
  (List.replicate 7 full_round).flatten ++ [Label.master 0, Label.master 1]

/-! ### Predicates on states -/

/-- A pair of distinct ingredients of the enumeration. -/
def GoodPair (p : Nat × Nat) : Prop := p.1 ≠ p.2 ∧ p.1 < NUM_CHEFS ∧ p.2 < NUM_CHEFS

/-- Every pair in the hands of the master chef or on the table is a pair of
distinct ingredients. -/
def PairsInv (s : State) : Prop :=
  (∀ a, s.master = MasterPc.drawing a → a < NUM_CHEFS) ∧
    (∀ a b, s.master = MasterPc.placing a b → GoodPair (a, b)) ∧
    (∀ a b, s.table = some (a, b) → GoodPair (a, b))

/-- The situation after chef 2 has left and the pair `(0, 1)` was placed:
nobody can clear the table any more. -/
def Stuck (s : State) : Prop :=
  s.table = some (0, 1) ∧ s.remaining_rounds = 0 ∧ s.chefs 2 = ChefPc.exited ∧
    (s.chefs 0 = ChefPc.top ∨ s.chefs 0 = ChefPc.reading) ∧
    (s.chefs 1 = ChefPc.top ∨ s.chefs 1 = ChefPc.reading) ∧
    (s.master = MasterPc.top ∨ s.master = MasterPc.exited)

end Chef

namespace Cinema

/-! ## Properties of cinema.c -/

theorem initialize_rooms_ok (fs0 : Files) : RoomsOk (initialize_rooms fs0) := by
  intro i hi
  have h : i = 0 ∨ i = 1 ∨ i = 2 := by omega
  rcases h with rfl | rfl | rfl <;>
    simp [initialize_rooms, List.range_succ, write_room, capacity]

/-- Rewriting an existing room file with a record that is within bounds keeps
all room files within bounds. -/
theorem RoomsOk_write (sh : Shared) (k : Nat) (r : Room) (ap : Int) (h : RoomsOk sh)
    (hr : 0 ≤ r.occupancy ∧ r.occupancy ≤ r.capacity ∧ r.capacity ∈ capacity) :
    RoomsOk { files := write_room sh.files k r, active_projections := ap } := by
  intro i hi
  by_cases hk : i + 1 = k
  · exact ⟨r, by simp [write_room, hk], hr⟩
  · obtain ⟨r0, h0, hb⟩ := h i hi
    exact ⟨r0, by simp [write_room, hk, h0], hb⟩

theorem enter_room_ok (rnd : Nat) (sh : Shared) (h : RoomsOk sh) :
    RoomsOk (enter_room rnd sh).2 := by
  obtain ⟨r, hr, h0, h1, h2⟩ := h (rnd % 3) (Nat.mod_lt _ (by decide))
  unfold enter_room enter_room_pass
  simp only [hr]
  by_cases hap : sh.active_projections = 0
  · simpa [hap] using h
  · by_cases hc : r.occupancy < r.capacity ∧ r.in_projection = 0
    · simp only [hap, hc, if_true, if_false, and_self]
      exact RoomsOk_write sh _ _ _ h ⟨by simp; omega, by simp; omega, h2⟩
    · simpa [hap, hc] using h

theorem start_projection_begin_ok (k : Nat) (sh sh' : Shared) (h : RoomsOk sh)
    (hs : start_projection_begin k sh = some sh') : RoomsOk sh' := by
  unfold start_projection_begin at hs
  cases hf : sh.files k with
  | none => simp [hf] at hs
  | some r =>
    simp only [hf, Option.some.injEq] at hs
    subst hs
    by_cases hk : ∃ i, i < 3 ∧ i + 1 = k
    · obtain ⟨i, hi, rfl⟩ := hk
      obtain ⟨r0, hr0, hb⟩ := h i hi
      rw [hf] at hr0
      cases hr0
      exact RoomsOk_write sh _ _ _ h hb
    · intro i hi
      obtain ⟨r0, hr0, hb⟩ := h i hi
      have hne : i + 1 ≠ k := fun e => hk ⟨i, hi, e⟩
      exact ⟨r0, by simp [write_room, hne, hr0], hb⟩

theorem start_projection_end_ok (k : Nat) (sh sh' : Shared) (h : RoomsOk sh)
    (hs : start_projection_end k sh = some sh') : RoomsOk sh' := by
  unfold start_projection_end at hs
  cases hf : sh.files k with
  | none => simp [hf] at hs
  | some r =>
    simp only [hf, Option.some.injEq] at hs
    subst hs
    by_cases hk : ∃ i, i < 3 ∧ i + 1 = k
    · obtain ⟨i, hi, rfl⟩ := hk
      obtain ⟨r0, hr0, hb⟩ := h i hi
      rw [hf] at hr0
      cases hr0
      exact RoomsOk_write sh _ _ _ h hb
    · intro i hi
      obtain ⟨r0, hr0, hb⟩ := h i hi
      have hne : i + 1 ≠ k := fun e => hk ⟨i, hi, e⟩
      exact ⟨r0, by simp [write_room, hne, hr0], hb⟩

theorem apply_op_ok (sh : Shared) (op : Op) (h : RoomsOk sh) : RoomsOk (apply_op sh op) := by
  cases op with
  | enter rnd => exact enter_room_ok rnd sh h
  | start i =>
    show RoomsOk ((start_projection_begin (i + 1) sh).getD sh)
    cases hs : start_projection_begin (i + 1) sh with
    | none => exact h
    | some sh' => exact start_projection_begin_ok _ _ _ h hs
  | finish i =>
    show RoomsOk ((start_projection_end (i + 1) sh).getD sh)
    cases hs : start_projection_end (i + 1) sh with
    | none => exact h
    | some sh' => exact start_projection_end_ok _ _ _ h hs

theorem apply_ops_ok (ops : List Op) (sh : Shared) (h : RoomsOk sh) :
    RoomsOk (apply_ops ops sh) := by
  induction ops generalizing sh with
  | nil => exact h
  | cons op ops ih => exact ih _ (apply_op_ok sh op h)

/-- C1: in every state reached from `initialize_rooms` by any sequence of
`enter_room` passes and `start_projection` start and finish sections, each of
the three room records exists and satisfies `0 ≤ occupancy ≤ capacity` (with
capacity 4, 5 or 7). -/
theorem occupancy_within_capacity (fs0 : Files) (ops : List Op) (i : Fin 3) :
    ∃ r, (apply_ops ops (initialize_rooms fs0)).files (i.val + 1) = some r ∧
      0 ≤ r.occupancy ∧ r.occupancy ≤ r.capacity ∧
      (r.capacity = 4 ∨ r.capacity = 5 ∨ r.capacity = 7) := by
  obtain ⟨r, hr, h0, h1, h2⟩ := apply_ops_ok ops _ (initialize_rooms_ok fs0) i.val i.isLt
  exact ⟨r, hr, h0, h1, by simpa [capacity] using h2⟩

/-- C3: one pass of the loop of `enter_room` on a room record: rejected with
the record unchanged when `active_projections == 0`; otherwise admitted with
`occupancy + 1` written when `occupancy < capacity` and `in_projection == 0`;
otherwise a wait with the record unchanged.  So a pass admits exactly when
`active_projections` is not 0 and the room is open with a free place, and the
record changes only on admission. -/
theorem enter_room_pass_spec (active_projections occupancy capacity in_projection : Int) :
    enter_room_pass active_projections (some ⟨occupancy, capacity, in_projection⟩) =
      (if active_projections = 0 then
        (Pass.rejected, some ⟨occupancy, capacity, in_projection⟩)
      else if occupancy < capacity ∧ in_projection = 0 then
        (Pass.admitted, some ⟨occupancy + 1, capacity, in_projection⟩)
      else (Pass.wait, some ⟨occupancy, capacity, in_projection⟩)) ∧
    ((enter_room_pass active_projections (some ⟨occupancy, capacity, in_projection⟩)).1 =
        Pass.admitted ↔
      active_projections ≠ 0 ∧ occupancy < capacity ∧ in_projection = 0) ∧
    ((enter_room_pass active_projections (some ⟨occupancy, capacity, in_projection⟩)).2 ≠
        some ⟨occupancy, capacity, in_projection⟩ ↔
      (enter_room_pass active_projections (some ⟨occupancy, capacity, in_projection⟩)).1 =
        Pass.admitted) := by
  unfold enter_room_pass
  by_cases hap : active_projections = 0
  · simp [hap]
  · by_cases hc : occupancy < capacity ∧ in_projection = 0
    · simp [hap, hc]
    · simp [hap, hc]

/-! ### The counter `active_projections` -/

theorem finished_count_eq (s : State) :
    finished_count s =
      (if s.proj 0 = ProjPc.finished then 1 else 0) +
      (if s.proj 1 = ProjPc.finished then 1 else 0) +
      (if s.proj 2 = ProjPc.finished then 1 else 0) := by
  simp only [finished_count, List.range_succ, List.range_zero, List.nil_append,
    List.cons_append, List.filter_cons, List.filter_nil]
  split_ifs <;> simp_all

theorem init_inv (fs0 : Files) : Inv (init fs0) := by
  refine ⟨initialize_rooms_ok fs0, ?_⟩
  simp [finished_count_eq, init, initialize_rooms]

theorem enter_room_active (rnd : Nat) (sh : Shared) :
    (enter_room rnd sh).2.active_projections = sh.active_projections := by
  unfold enter_room
  dsimp only
  split <;> rfl

theorem start_projection_begin_some (i : Nat) (hi : i < 3) (sh : Shared) (h : RoomsOk sh) :
    ∃ sh', start_projection_begin (i + 1) sh = some sh' ∧
      sh'.active_projections = sh.active_projections := by
  obtain ⟨r, hr, _⟩ := h i hi
  simp only [start_projection_begin, hr]
  exact ⟨_, rfl, rfl⟩

theorem start_projection_end_some (i : Nat) (hi : i < 3) (sh : Shared) (h : RoomsOk sh) :
    ∃ sh', start_projection_end (i + 1) sh = some sh' ∧
      sh'.active_projections = sh.active_projections - 1 := by
  obtain ⟨r, hr, _⟩ := h i hi
  simp only [start_projection_end, hr]
  exact ⟨_, rfl, rfl⟩

theorem step_inv (s : State) (l : Label) (h : Inv s) : Inv (step s l) := by
  obtain ⟨hok, hap⟩ := h
  cases l with
  | customer rnd =>
    refine ⟨enter_room_ok rnd _ hok, ?_⟩
    simp only [step, enter_room_active, hap, finished_count_eq]
  | projection i =>
    unfold step
    by_cases hi : i < 3
    · simp only [hi, if_true]
      cases hpc : s.proj i with
      | created =>
        obtain ⟨sh', hs, hap'⟩ := start_projection_begin_some i hi _ hok
        simp only [hs]
        refine ⟨start_projection_begin_ok _ _ _ hok hs, ?_⟩
        have h3 : i = 0 ∨ i = 1 ∨ i = 2 := by omega
        rw [finished_count_eq] at hap
        rcases h3 with rfl | rfl | rfl <;>
          simp_all [finished_count_eq, set_pc]
      | sleeping =>
        obtain ⟨sh', hs, hap'⟩ := start_projection_end_some i hi _ hok
        simp only [hs]
        refine ⟨start_projection_end_ok _ _ _ hok hs, ?_⟩
        have h3 : i = 0 ∨ i = 1 ∨ i = 2 := by omega
        rw [finished_count_eq] at hap
        rcases h3 with rfl | rfl | rfl <;>
          simp_all [finished_count_eq, set_pc] <;> split_ifs <;> omega
      | finished => exact ⟨hok, hap⟩
      | failed => exact ⟨hok, hap⟩
    · simp only [hi, if_false]
      exact ⟨hok, hap⟩

theorem run_inv (sched : List Label) (s : State) (h : Inv s) : Inv (run sched s) := by
  induction sched generalizing s with
  | nil => exact h
  | cons l sched ih => exact ih _ (step_inv s l h)

theorem run_append (a b : List Label) (s : State) : run (a ++ b) s = run b (run a s) := by
  simp [run, List.foldl_append]

theorem active_zero_iff (s : State) (h : Inv s) :
    s.shared.active_projections = 0 ↔ ∀ i, i < 3 → s.proj i = ProjPc.finished := by
  have hap := h.2
  constructor
  · intro h0 i hi
    have hc : finished_count s = 3 := by omega
    rw [finished_count_eq] at hc
    have h3 : i = 0 ∨ i = 1 ∨ i = 2 := by omega
    by_contra hne
    rcases h3 with rfl | rfl | rfl <;> rw [if_neg hne] at hc <;> split_ifs at hc <;> omega
  · intro hall
    have hc : finished_count s = 3 := by
      rw [finished_count_eq, if_pos (hall 0 (by decide)), if_pos (hall 1 (by decide)),
        if_pos (hall 2 (by decide))]
    omega

/-- Once `active_projections` is 0 no step changes anything. -/
theorem step_frozen (s : State) (l : Label) (h : Inv s)
    (h0 : s.shared.active_projections = 0) : step s l = s := by
  cases l with
  | customer rnd =>
    simp [step, enter_room, enter_room_pass, h0]
  | projection i =>
    unfold step
    by_cases hi : i < 3
    · simp [hi, (active_zero_iff s h).1 h0 i hi]
    · simp [hi]

theorem run_frozen (sched : List Label) (s : State) (h : Inv s)
    (h0 : s.shared.active_projections = 0) : run sched s = s := by
  induction sched with
  | nil => rfl
  | cons l sched ih =>
    show run sched (step s l) = s
    rw [step_frozen s l h h0]
    exact ih

/-- With the room files in place a projection thread never takes an `fopen`
error return. -/
theorem step_no_failure (s : State) (l : Label) (h : Inv s)
    (hn : ∀ j, s.proj j ≠ ProjPc.failed) : ∀ j, (step s l).proj j ≠ ProjPc.failed := by
  cases l with
  | customer rnd => exact hn
  | projection i =>
    unfold step
    by_cases hi : i < 3
    · simp only [hi, if_true]
      cases hpc : s.proj i with
      | created =>
        obtain ⟨sh', hs, _⟩ := start_projection_begin_some i hi _ h.1
        simp only [hs]
        intro j
        by_cases hj : j = i
        · simp [set_pc, hj]
        · simpa [set_pc, hj] using hn j
      | sleeping =>
        obtain ⟨sh', hs, _⟩ := start_projection_end_some i hi _ h.1
        simp only [hs]
        intro j
        by_cases hj : j = i
        · simp [set_pc, hj]
        · simpa [set_pc, hj] using hn j
      | finished => exact hn
      | failed => exact hn
    · simp only [hi, if_false]
      exact hn

theorem run_no_failure (sched : List Label) (s : State) (h : Inv s)
    (hn : ∀ j, s.proj j ≠ ProjPc.failed) : ∀ j, (run sched s).proj j ≠ ProjPc.failed := by
  induction sched generalizing s with
  | nil => exact hn
  | cons l sched ih => exact ih _ (step_inv s l h) (step_no_failure s l h hn)

/-- The second critical section of a projection thread succeeds: the thread
ends as finished and the counter goes down by one. -/
theorem step_sleeping (s : State) (i : Nat) (hi : i < 3) (h : Inv s)
    (hs : s.proj i = ProjPc.sleeping) :
    (step s (Label.projection i)).proj i = ProjPc.finished ∧
      (step s (Label.projection i)).shared.active_projections =
        s.shared.active_projections - 1 := by
  obtain ⟨sh', hsome, hap⟩ := start_projection_end_some i hi _ h.1
  unfold step
  simp only [hi, if_true, hs, hsome]
  exact ⟨by simp [set_pc], hap⟩

/-- The first critical section of a projection thread succeeds and leaves the
counter alone. -/
theorem step_created (s : State) (i : Nat) (hi : i < 3) (h : Inv s)
    (hs : s.proj i = ProjPc.created) :
    (step s (Label.projection i)).proj i = ProjPc.sleeping ∧
      (step s (Label.projection i)).shared.active_projections =
        s.shared.active_projections := by
  obtain ⟨sh', hsome, hap⟩ := start_projection_begin_some i hi _ h.1
  unfold step
  simp only [hi, if_true, hs, hsome]
  exact ⟨by simp [set_pc], hap⟩

/-- Only the section that concludes a session changes the counter. -/
theorem step_not_sleeping (s : State) (i : Nat) (h : Inv s)
    (hs : s.proj i ≠ ProjPc.sleeping) :
    (step s (Label.projection i)).shared.active_projections =
      s.shared.active_projections := by
  by_cases hi : i < 3
  · cases hpc : s.proj i with
    | created => exact (step_created s i hi h hpc).2
    | sleeping => exact absurd hpc hs
    | finished => simp [step, hi, hpc]
    | failed => simp [step, hi, hpc]
  · simp [step, hi]

theorem step_keeps_finished (s : State) (l : Label) (j : Nat)
    (hj : s.proj j = ProjPc.finished) : (step s l).proj j = ProjPc.finished := by
  cases l with
  | customer rnd => exact hj
  | projection i =>
    unfold step
    by_cases hi : i < 3
    · simp only [hi, if_true]
      by_cases hji : j = i
      · subst hji
        simp [hj]
      · cases s.proj i <;> dsimp only <;> (try split) <;> simp [set_pc, hji, hj]
    · simp only [hi, if_false]
      exact hj

/-- Thread `projections[i]` scheduled twice has concluded its session. -/
theorem two_steps_finish (s : State) (i : Nat) (hi : i < 3) (h : Inv s)
    (hn : s.proj i ≠ ProjPc.failed) :
    (step (step s (Label.projection i)) (Label.projection i)).proj i = ProjPc.finished := by
  cases hpc : s.proj i with
  | created =>
    exact (step_sleeping _ i hi (step_inv s _ h) (step_created s i hi h hpc).1).1
  | sleeping =>
    exact step_keeps_finished _ _ i (step_sleeping s i hi h hpc).1
  | finished =>
    exact step_keeps_finished _ _ i (step_keeps_finished _ _ i hpc)
  | failed => exact absurd hpc hn

theorem run_keeps_finished (sched : List Label) (s : State) (j : Nat)
    (hj : s.proj j = ProjPc.finished) : (run sched s).proj j = ProjPc.finished := by
  induction sched generalizing s with
  | nil => exact hj
  | cons l sched ih => exact ih _ (step_keeps_finished s l j hj)

/-- From a state of an execution, running the three projection threads to
their end concludes the three sessions. -/
theorem all_sessions_finish (s : State) (h : Inv s) (hn : ∀ j, s.proj j ≠ ProjPc.failed)
    (i : Nat) (hi : i < 3) : (run all_sessions s).proj i = ProjPc.finished := by
  have h0 := two_steps_finish s 0 (by decide) h (hn 0)
  have hs2 : Inv (run [Label.projection 0, Label.projection 0] s) := run_inv _ s h
  have hn2 := run_no_failure [Label.projection 0, Label.projection 0] s h hn
  have h1 := two_steps_finish _ 1 (by decide) hs2 (hn2 1)
  have hs4 : Inv (run [Label.projection 1, Label.projection 1]
      (run [Label.projection 0, Label.projection 0] s)) := run_inv _ _ hs2
  have hn4 := run_no_failure [Label.projection 1, Label.projection 1] _ hs2 hn2
  have h2 := two_steps_finish _ 2 (by decide) hs4 (hn4 2)
  have h3 : i = 0 ∨ i = 1 ∨ i = 2 := by omega
  rcases h3 with rfl | rfl | rfl
  · exact run_keeps_finished [Label.projection 1, Label.projection 1, Label.projection 2,
      Label.projection 2] _ 0 h0
  · exact run_keeps_finished [Label.projection 2, Label.projection 2] _ 1 h1
  · exact h2

/-- C10: in every state of every execution `active_projections` is 3 minus
the number of rooms whose session has finished; it is never negative and is 0
exactly when the three sessions have finished; a pass of `enter_room` never
changes it, and a `start_projection` step decrements it by one exactly when
that step concludes the room's session.  The concluding section never fails:
no projection thread ever takes an `fopen` error return, the second critical
section of a thread always ends the session and takes one off the counter, no
other section of a projection thread changes the counter, and once the three
threads have run to their end the counter is 0. -/
theorem active_projections_counts_finished (fs0 : Files) (sched : List Label) :
    (run sched (init fs0)).shared.active_projections =
        3 - (finished_count (run sched (init fs0)) : Int) ∧
      0 ≤ (run sched (init fs0)).shared.active_projections ∧
      ((run sched (init fs0)).shared.active_projections = 0 ↔
        ∀ i, i < 3 → (run sched (init fs0)).proj i = ProjPc.finished) ∧
      (∀ rnd, (step (run sched (init fs0)) (Label.customer rnd)).shared.active_projections =
        (run sched (init fs0)).shared.active_projections) ∧
      (∀ i, (step (run sched (init fs0)) (Label.projection i)).shared.active_projections =
        (run sched (init fs0)).shared.active_projections -
          ((finished_count (step (run sched (init fs0)) (Label.projection i)) : Int) -
            (finished_count (run sched (init fs0)) : Int))) ∧
      (∀ i, (run sched (init fs0)).proj i ≠ ProjPc.failed) ∧
      (∀ i, i < 3 → (run sched (init fs0)).proj i = ProjPc.sleeping →
        (step (run sched (init fs0)) (Label.projection i)).proj i = ProjPc.finished ∧
          (step (run sched (init fs0)) (Label.projection i)).shared.active_projections =
            (run sched (init fs0)).shared.active_projections - 1) ∧
      (∀ i, (run sched (init fs0)).proj i ≠ ProjPc.sleeping →
        (step (run sched (init fs0)) (Label.projection i)).shared.active_projections =
          (run sched (init fs0)).shared.active_projections) ∧
      (run (sched ++ all_sessions) (init fs0)).shared.active_projections = 0 ∧
      (run all_sessions (init fs0)).shared.active_projections = 0 ∧
      (run [Label.projection 0, Label.projection 0] (init fs0)).shared.active_projections = 2 ∧
      (run [Label.projection 0, Label.projection 0] (init fs0)).proj 0 = ProjPc.finished := by
  have h := run_inv sched _ (init_inv fs0)
  have hn : ∀ j, (run sched (init fs0)).proj j ≠ ProjPc.failed :=
    run_no_failure sched _ (init_inv fs0) (fun j => by simp [init])
  have hall : ∀ (sched' : List Label),
      (run (sched' ++ all_sessions) (init fs0)).shared.active_projections = 0 := by
    intro sched'
    have h' := run_inv sched' _ (init_inv fs0)
    have hn' : ∀ j, (run sched' (init fs0)).proj j ≠ ProjPc.failed :=
      run_no_failure sched' _ (init_inv fs0) (fun j => by simp [init])
    rw [run_append]
    exact (active_zero_iff _ (run_inv all_sessions _ h')).2
      (fun i hi => all_sessions_finish _ h' hn' i hi)
  have htwo := step_sleeping (step (init fs0) (Label.projection 0)) 0 (by decide)
    (step_inv _ _ (init_inv fs0)) (step_created (init fs0) 0 (by decide) (init_inv fs0) rfl).1
  refine ⟨h.2, ?_, active_zero_iff _ h, ?_, ?_, hn, ?_, ?_, hall sched, hall [], ?_, htwo.1⟩
  · have hc := finished_count_eq (run sched (init fs0))
    have h2 := h.2
    have : finished_count (run sched (init fs0)) ≤ 3 := by
      rw [hc]; split_ifs <;> simp
    omega
  · intro rnd
    simp [step, enter_room_active]
  · intro i
    have h' := (step_inv _ (Label.projection i) h).2
    have h2 := h.2
    omega
  · intro i hi hs
    exact step_sleeping _ i hi h hs
  · intro i hs
    exact step_not_sleeping _ i h hs
  · have h1 := (step_created (init fs0) 0 (by decide) (init_inv fs0) rfl).2
    have h2 := htwo.2
    have h3 : (init fs0).shared.active_projections = 3 := rfl
    show (step (step (init fs0) (Label.projection 0))
      (Label.projection 0)).shared.active_projections = 2
    omega

/-- C7 (refutation): after the session of room 1 has finished while the other
two sessions have not, the record of room 1 is open again and a pass of
`enter_room` for room 1 is admitted, raising its occupancy from 0 to 1. -/
theorem room_reopens_after_session :
    (run [Label.projection 0, Label.projection 0] (init fun _ => none)).proj 0 =
        ProjPc.finished ∧
      (run [Label.projection 0, Label.projection 0] (init fun _ => none)).shared.files 1 =
        some ⟨0, 4, 0⟩ ∧
      (enter_room 0
        (run [Label.projection 0, Label.projection 0] (init fun _ => none)).shared).1 =
        Pass.admitted ∧
      (run [Label.projection 0, Label.projection 0, Label.customer 0]
        (init fun _ => none)).shared.files 1 = some ⟨1, 4, 0⟩ := by
  refine ⟨rfl, rfl, rfl, rfl⟩

/-- C7 (amended): once the session of a room has finished and
`active_projections` has reached 0, no pass of `enter_room` is admitted any
more: in every continuation of the execution every pass is rejected and the
record of the room (so its occupancy) stays what it was. -/
theorem no_admission_after_all_sessions (fs0 : Files) (sched cont : List Label) (i : Fin 3)
    (hfin : (run sched (init fs0)).proj i.val = ProjPc.finished)
    (hzero : (run sched (init fs0)).shared.active_projections = 0) :
    (run (sched ++ cont) (init fs0)).shared.files (i.val + 1) =
        (run sched (init fs0)).shared.files (i.val + 1) ∧
      (run (sched ++ cont) (init fs0)).proj i.val = ProjPc.finished ∧
      ∀ rnd, (enter_room rnd (run (sched ++ cont) (init fs0)).shared).1 = Pass.rejected := by
  have h := run_inv sched _ (init_inv fs0)
  rw [run_append, run_frozen cont _ h hzero]
  refine ⟨rfl, hfin, ?_⟩
  intro rnd
  simp [enter_room, enter_room_pass, hzero]

theorem no_admission_after_all_sessions_witness :
    (run all_sessions
        (init fun _ => none)).proj 0 = ProjPc.finished ∧
      (run all_sessions
        (init fun _ => none)).shared.active_projections = 0 ∧
      (run (all_sessions ++
          [Label.customer 0]) (init fun _ => none)).shared.files 1 = some ⟨0, 4, 0⟩ := by
  have h := no_admission_after_all_sessions (fun _ => none)
    all_sessions
    [Label.customer 0] ⟨0, by decide⟩ rfl rfl
  exact ⟨rfl, rfl, h.1.trans rfl⟩

/-! ### Arrivals at one open room -/

theorem arrivals_init_inv (c n : Nat) : ArrInv c n (arrivals_init ⟨0, (c : Nat), 0⟩ n) := by
  refine ⟨by simp [arrivals_init], ?_, ?_, ?_, ?_⟩
  · simp [arrivals_init, List.count_replicate]
  · simp [arrivals_init, List.count_replicate]
  · intro x hx
    simp [arrivals_init] at hx
    exact Or.inl hx.2
  · intro hx
    simp [arrivals_init] at hx

theorem arrive_pass_inv (c n : Nat) (a : Arrivals) (i : Nat) (ap : Int) (x : Option Pass)
    (hx : a.customers[i]? = some x) (hx' : x = none ∨ x = some Pass.wait)
    (h : ArrInv c n a) (hap : 0 < ap) :
    ArrInv c n { file := (enter_room_pass ap a.file).2
                 customers := a.customers.set i (some (enter_room_pass ap a.file).1) } := by
  obtain ⟨hlen, hfile, hle, hall, hwait⟩ := h
  obtain ⟨hlt, hget⟩ := List.getElem?_eq_some.1 hx
  have hne : ap ≠ 0 := by omega
  have hxa : (a.customers[i] == some Pass.admitted) = false := by
    rw [hget]
    rcases hx' with rfl | rfl <;> decide
  by_cases hocc : a.customers.count (some Pass.admitted) < c
  · have hres : enter_room_pass ap a.file =
        (Pass.admitted, some ⟨(a.customers.count (some Pass.admitted) : Nat) + 1, (c : Nat), 0⟩) := by
      have : ((a.customers.count (some Pass.admitted) : Nat) : Int) < (c : Nat) := by
        exact_mod_cast hocc
      simp [enter_room_pass, hfile, hne, this]
    have hcount : (a.customers.set i (some Pass.admitted)).count (some Pass.admitted) =
        a.customers.count (some Pass.admitted) + 1 := by
      rw [List.count_set _ _ _ _ hlt, hxa]
      simp
    rw [hres]
    refine ⟨by simp [hlen], ?_, ?_, ?_, ?_⟩
    · simp only [hcount]
      push_cast
      rfl
    · simp only [hcount]
      omega
    · intro y hy
      rcases List.mem_or_eq_of_mem_set hy with hy | hy
      · exact hall y hy
      · exact Or.inr (Or.inr hy)
    · intro hy
      rcases List.mem_or_eq_of_mem_set hy with hy | hy
      · have := hwait hy
        omega
      · cases hy
  · have hres : enter_room_pass ap a.file = (Pass.wait, a.file) := by
      have : ¬ ((a.customers.count (some Pass.admitted) : Nat) : Int) < (c : Nat) := by
        exact_mod_cast hocc
      simp [enter_room_pass, hfile, hne, this]
    have hcount : (a.customers.set i (some Pass.wait)).count (some Pass.admitted) =
        a.customers.count (some Pass.admitted) := by
      rw [List.count_set _ _ _ _ hlt, hxa]
      simp
    rw [hres]
    refine ⟨by simp [hlen], ?_, ?_, ?_, ?_⟩
    · simp only [hcount]
      exact hfile
    · simp only [hcount]
      exact hle
    · intro y hy
      rcases List.mem_or_eq_of_mem_set hy with hy | hy
      · exact hall y hy
      · exact Or.inr (Or.inl hy)
    · intro _
      simp only [hcount]
      omega

theorem arrive_inv (c n : Nat) (a : Arrivals) (e : Nat × Int) (h : ArrInv c n a)
    (hap : 0 < e.2) : ArrInv c n (arrive a e) := by
  unfold arrive
  cases hget : a.customers.get? e.1 with
  | none => exact h
  | some x =>
    have hx : a.customers[e.1]? = some x := by simpa using hget
    cases x with
    | none => exact arrive_pass_inv c n a e.1 e.2 none hx (Or.inl rfl) h hap
    | some p =>
      cases p with
      | wait => exact arrive_pass_inv c n a e.1 e.2 _ hx (Or.inr rfl) h hap
      | rejected => exact h
      | open_error => exact h
      | admitted => exact h

theorem arrivals_inv (c n : Nat) (sched : List (Nat × Int)) (a : Arrivals) (h : ArrInv c n a)
    (hap : ∀ e ∈ sched, 0 < e.2) : ArrInv c n (sched.foldl arrive a) := by
  induction sched generalizing a with
  | nil => exact h
  | cons e sched ih =>
    exact ih _ (arrive_inv c n a e h (hap e (List.mem_cons_self _ _)))
      (fun e' he' => hap e' (List.mem_cons_of_mem _ he'))

/-- A customer that has run a pass never counts as not arrived again. -/
theorem arrive_keeps_arrived (a : Arrivals) (e : Nat × Int) (j : Nat)
    (h : a.customers[j]? ≠ some none) : (arrive a e).customers[j]? ≠ some none := by
  unfold arrive
  split
  · simp only [List.getElem?_set]
    split_ifs <;> simp_all
  · simp only [List.getElem?_set]
    split_ifs <;> simp_all
  · exact h

theorem arrive_arrives (a : Arrivals) (e : Nat × Int) :
    (arrive a e).customers[e.1]? ≠ some none := by
  unfold arrive
  split
  · simp only [List.getElem?_set]
    split_ifs <;> simp_all
  · simp only [List.getElem?_set]
    split_ifs <;> simp_all
  · rename_i hno hw
    intro hc
    exact hno (by simpa using hc)

theorem foldl_keeps_arrived (sched : List (Nat × Int)) (a : Arrivals) (j : Nat)
    (h : a.customers[j]? ≠ some none) : (sched.foldl arrive a).customers[j]? ≠ some none := by
  induction sched generalizing a with
  | nil => exact h
  | cons e sched ih => exact ih _ (arrive_keeps_arrived a e j h)

theorem foldl_arrives (sched : List (Nat × Int)) (a : Arrivals) (i : Nat)
    (h : ∃ e ∈ sched, e.1 = i) : (sched.foldl arrive a).customers[i]? ≠ some none := by
  induction sched generalizing a with
  | nil => simp at h
  | cons e sched ih =>
    by_cases hei : e.1 = i
    · exact foldl_keeps_arrived sched _ i (hei ▸ arrive_arrives a e)
    · obtain ⟨e', he', hi'⟩ := h
      rcases List.mem_cons.1 he' with rfl | hmem
      · exact absurd hi' hei
      · exact ih _ ⟨e', hmem, hi'⟩

theorem count_wait_add_admitted (l : List (Option Pass))
    (h : ∀ x ∈ l, x = some Pass.wait ∨ x = some Pass.admitted) :
    l.count (some Pass.wait) + l.count (some Pass.admitted) = l.length := by
  induction l with
  | nil => rfl
  | cons x l ih =>
    have ih' := ih (fun y hy => h y (List.mem_cons_of_mem _ hy))
    rcases h x (List.mem_cons_self _ _) with rfl | rfl <;>
      simp [List.count_cons] <;> omega

/-- C9: `n` customers arrive at a room of capacity `c` with occupancy 0 and
no session started, in any schedule in which `active_projections` is positive
at every pass and every customer runs at least one pass (customers that wait
may retry any number of times).  Then exactly `min n c` customers are
admitted, the other `n - min n c` are waiting (not admitted), and the room
record ends with occupancy `min n c`. -/
theorem arrivals_admitted_min (c n : Nat) (sched : List (Nat × Int))
    (hap : ∀ e ∈ sched, 0 < e.2) (hall : ∀ i, i < n → ∃ e ∈ sched, e.1 = i) :
    (sched.foldl arrive (arrivals_init ⟨0, (c : Nat), 0⟩ n)).customers.count
        (some Pass.admitted) = min n c ∧
      (sched.foldl arrive (arrivals_init ⟨0, (c : Nat), 0⟩ n)).customers.count
        (some Pass.wait) = n - min n c ∧
      (sched.foldl arrive (arrivals_init ⟨0, (c : Nat), 0⟩ n)).customers.length = n ∧
      (sched.foldl arrive (arrivals_init ⟨0, (c : Nat), 0⟩ n)).file =
        some ⟨(min n c : Nat), (c : Nat), 0⟩ := by
  have harr : ∀ j, j < n →
      (sched.foldl arrive (arrivals_init ⟨0, (c : Nat), 0⟩ n)).customers[j]? ≠ some none :=
    fun j hj => foldl_arrives sched _ j (hall j hj)
  obtain ⟨hlen, hfile, hle, hval, hwait⟩ :=
    arrivals_inv c n sched _ (arrivals_init_inv c n) hap
  generalize sched.foldl arrive (arrivals_init ⟨0, (c : Nat), 0⟩ n) = a at *
  have hsum : a.customers.count (some Pass.wait) + a.customers.count (some Pass.admitted) = n := by
    rw [← hlen]
    apply count_wait_add_admitted
    intro x hx
    rcases hval x hx with rfl | h | h
    · exfalso
      obtain ⟨j, hj, hjx⟩ := List.getElem_of_mem hx
      exact harr j (hlen ▸ hj) (by rw [List.getElem?_eq_getElem hj, hjx])
    · exact Or.inl h
    · exact Or.inr h
  have hadm : a.customers.count (some Pass.admitted) = min n c := by
    by_cases hw : some Pass.wait ∈ a.customers
    · have := hwait hw
      omega
    · have : a.customers.count (some Pass.wait) = 0 := List.count_eq_zero.2 hw
      omega
  refine ⟨hadm, by omega, hlen, ?_⟩
  rw [hfile, hadm]

theorem arrivals_admitted_min_witness :
    (∀ e ∈ [(0, (3 : Int)), (1, 3), (2, 3), (3, 3), (4, 3)], 0 < e.2) ∧
      (∀ i, i < 5 → ∃ e ∈ [(0, (3 : Int)), (1, 3), (2, 3), (3, 3), (4, 3)], e.1 = i) ∧
      ([(0, (3 : Int)), (1, 3), (2, 3), (3, 3), (4, 3)].foldl arrive
        (arrivals_init ⟨0, 4, 0⟩ 5)).customers.count (some Pass.admitted) = 4 ∧
      ([(0, (3 : Int)), (1, 3), (2, 3), (3, 3), (4, 3)].foldl arrive
        (arrivals_init ⟨0, 4, 0⟩ 5)).customers.count (some Pass.wait) = 1 ∧
      ([(0, (3 : Int)), (1, 3), (2, 3), (3, 3), (4, 3)].foldl arrive
        (arrivals_init ⟨0, 4, 0⟩ 5)).file = some ⟨4, 4, 0⟩ := by
  have h := arrivals_admitted_min 4 5 [(0, (3 : Int)), (1, 3), (2, 3), (3, 3), (4, 3)]
    (by decide) (by decide)
  exact ⟨by decide, by decide, h.1, h.2.1, h.2.2.2⟩

end Cinema

namespace Chef

/-! ## Properties of chef.c -/

theorem draw_ing2_good (rand : Nat → Nat) (ing1 fuel pos : Nat) (res : Nat × Nat)
    (h : draw_ing2 rand ing1 fuel pos = some res) : ing1 ≠ res.1 ∧ res.1 < NUM_CHEFS := by
  induction fuel generalizing pos with
  | zero => simp [draw_ing2] at h
  | succ fuel ih =>
    unfold draw_ing2 at h
    by_cases he : ing1 = rand pos % NUM_CHEFS
    · simp only [he, if_true] at h
      exact he ▸ ih (pos + 1) (by simpa [← he] using h)
    · simp only [he, if_false, Option.some.injEq] at h
      subst h
      exact ⟨he, Nat.mod_lt _ (by decide)⟩

theorem draw_pair_good (rand : Nat → Nat) (fuel pos : Nat) (res : (Nat × Nat) × Nat)
    (h : draw_pair rand fuel pos = some res) : GoodPair res.1 := by
  unfold draw_pair at h
  cases hd : draw_ing2 rand (rand pos % NUM_CHEFS) fuel (pos + 1) with
  | none => simp [hd] at h
  | some x =>
    simp only [hd, Option.some.injEq] at h
    subst h
    have := draw_ing2_good rand _ fuel _ x hd
    exact ⟨this.1, Nat.mod_lt _ (by decide), this.2⟩

/-- For a pair of distinct ingredients exactly one chef passes the test of
line 159. -/
theorem good_pair_one_chef (p : Nat × Nat) (h : GoodPair p) :
    ∃! id, id ∈ ingredients ∧ usable id p.1 p.2 = true := by
  obtain ⟨a, b⟩ := p
  obtain ⟨hne, ha, hb⟩ := h
  simp only [NUM_CHEFS] at ha hb
  simp only at hne ha hb
  have key : ∀ a b : Fin 3, a ≠ b →
      ∃ id ∈ ingredients, usable id a.val b.val = true ∧
        ∀ y ∈ ingredients, usable y a.val b.val = true → y = id := by decide
  obtain ⟨id, hid, hu, huniq⟩ := key ⟨a, ha⟩ ⟨b, hb⟩ (by simpa [Fin.ext_iff] using hne)
  exact ⟨id, ⟨hid, hu⟩, fun y hy => huniq y hy.1 hy.2⟩

theorem master_chef_puts_good (rand : Nat → Nat) (fuel : Nat) (remaining_rounds : Int)
    (pos : Nat) : ∀ p ∈ (master_chef rand fuel remaining_rounds pos).1, GoodPair p := by
  induction fuel generalizing remaining_rounds pos with
  | zero => simp [master_chef]
  | succ fuel ih =>
    unfold master_chef
    by_cases hr : remaining_rounds ≤ 0
    · simp [hr]
    · simp only [hr, if_false]
      cases hd : draw_pair rand fuel pos with
      | none => simp
      | some res =>
        intro p hp
        simp only [List.mem_cons] at hp
        rcases hp with rfl | hp
        · exact draw_pair_good rand fuel pos res hd
        · exact ih _ _ p hp

/-- C2: every pair that `master_chef` passes to `put_on_table`, whatever the
values returned by `rand()`, consists of two different ingredients of
`{0, 1, 2}`, and exactly one of the chef identities NOODLES, WATER, SEEDS
passes the chef's test `ing1 != id && ing2 != id` on it. -/
theorem master_chef_pairs_exclude_one (rand : Nat → Nat) (fuel : Nat) (remaining_rounds : Int)
    (pos : Nat) (p : Nat × Nat) (hp : p ∈ (master_chef rand fuel remaining_rounds pos).1) :
    p.1 ≠ p.2 ∧ p.1 ∈ [0, 1, 2] ∧ p.2 ∈ [0, 1, 2] ∧
      ∃! id, id ∈ [NOODLES, WATER, SEEDS] ∧ (p.1 ≠ id ∧ p.2 ≠ id) := by
  have hg := master_chef_puts_good rand fuel remaining_rounds pos p hp
  obtain ⟨id, ⟨hid, hu⟩, huniq⟩ := good_pair_one_chef p hg
  obtain ⟨hne, ha, hb⟩ := hg
  simp only [NUM_CHEFS] at ha hb
  refine ⟨hne, ?_, ?_, id, ⟨hid, ?_⟩, ?_⟩
  · simp only [List.mem_cons, List.mem_singleton, List.not_mem_nil, or_false]
    omega
  · simp only [List.mem_cons, List.mem_singleton, List.not_mem_nil, or_false]
    omega
  · simpa [usable] using hu
  · intro y hy
    exact huniq y ⟨hy.1, by simpa [usable] using hy.2⟩

theorem master_chef_pairs_exclude_one_witness :
    (1, 2) ∈ (master_chef (fun k => k / 2) 20 ROUNDS 0).1 ∧
      ((1 : Nat) ≠ 2 ∧ 1 ∈ [0, 1, 2] ∧ 2 ∈ [0, 1, 2] ∧
        ∃! id, id ∈ [NOODLES, WATER, SEEDS] ∧ (1 ≠ id ∧ 2 ≠ id)) :=
  ⟨by decide, master_chef_pairs_exclude_one (fun k => k / 2) 20 ROUNDS 0 (1, 2) (by decide)⟩

/-- C4: a pass of the loop of `chef` that finds the pair `(a, b)` on the
table clears the table exactly when `a != id` and `b != id` (it is then that
`clear_table` is called); when `a == id` or `b == id` the table is left as it
was.  For the pair `(0, 1)` chef 2 clears it and chefs 0 and 1 do not. -/
theorem chef_pass_clears_iff_usable (id a b : Nat) (remaining_rounds : Int) :
    ((chef_pass id remaining_rounds (some (a, b))).2 = none ↔ (a ≠ id ∧ b ≠ id)) ∧
      ((chef_pass id remaining_rounds (some (a, b))).2 = some (a, b) ↔ (a = id ∨ b = id)) ∧
      ((chef_step id remaining_rounds ChefPc.reading (some (a, b))).1 = ChefPc.cooking ↔
        (a ≠ id ∧ b ≠ id)) ∧
      (chef_pass 2 remaining_rounds (some (0, 1))).2 = none ∧
      (chef_pass 0 remaining_rounds (some (0, 1))).2 = some (0, 1) ∧
      (chef_pass 1 remaining_rounds (some (0, 1))).2 = some (0, 1) := by
  have hpass : ∀ i x y : Nat, chef_pass i remaining_rounds (some (x, y)) =
      if x ≠ i ∧ y ≠ i then (ChefPc.top, none) else (ChefPc.top, some (x, y)) := by
    intro i x y
    by_cases h : x ≠ i ∧ y ≠ i
    · simp [chef_pass, chef_step, read_table, clear_table, usable, h]
    · have h' : ¬ (¬ x = i ∧ ¬ y = i) := h
      simp [chef_pass, chef_step, read_table, clear_table, usable, h, h']
  refine ⟨?_, ?_, ?_, ?_, ?_, ?_⟩
  · rw [hpass]
    split_ifs with h <;> simp [h]
  · rw [hpass]
    split_ifs with h
    · simp [h]
    · simp only [true_iff]
      by_contra hc
      exact h ⟨fun e => hc (Or.inl e), fun e => hc (Or.inr e)⟩
  · by_cases h : a ≠ id ∧ b ≠ id
    · simp [chef_step, read_table, usable, h]
    · have h' : ¬ (¬ a = id ∧ ¬ b = id) := h
      simp [chef_step, read_table, usable, h, h']
  · rw [hpass]; simp
  · rw [hpass]; simp
  · rw [hpass]; simp

/-! ### Pairs on the table in the interleaved executions -/

theorem init_pairs (R : Int) : PairsInv (init R) := by
  refine ⟨?_, ?_, ?_⟩ <;> intros <;> simp_all [init]

theorem step_pairs (s : State) (l : Label) (h : PairsInv s) : PairsInv (step s l) := by
  obtain ⟨hd, hp, ht⟩ := h
  cases l with
  | master r =>
    show PairsInv (master_step r s)
    unfold master_step
    cases hm : s.master with
    | top =>
      by_cases hr : s.remaining_rounds ≤ 0
      · simp only [hr, if_true]
        exact ⟨by simp, by simp, ht⟩
      · simp only [hr, if_false]
        refine ⟨?_, by simp, ht⟩
        intro a ha
        simp only [MasterPc.drawing.injEq] at ha
        exact ha ▸ Nat.mod_lt _ (by decide)
    | drawing ing1 =>
      by_cases he : ing1 = r % NUM_CHEFS
      · simp only [← he, if_true]
        exact ⟨fun a ha => hd a (hm ▸ ha), fun a b hab => hp a b (hm ▸ hab), ht⟩
      · simp only [he, if_false]
        refine ⟨by simp, ?_, ht⟩
        intro a b hab
        simp only [MasterPc.placing.injEq] at hab
        obtain ⟨rfl, rfl⟩ := hab
        exact ⟨he, hd _ hm, Nat.mod_lt _ (by decide)⟩
    | placing ing1 ing2 =>
      cases htab : s.table with
      | some x =>
        simp only [put_on_table]
        exact ⟨fun a ha => hd a (hm ▸ ha), fun a b hab => hp a b (hm ▸ hab), ht⟩
      | none =>
        simp only [put_on_table]
        refine ⟨by simp, by simp, ?_⟩
        intro a b hab
        simp only [Option.some.injEq, Prod.mk.injEq] at hab
        obtain ⟨rfl, rfl⟩ := hab
        exact hp _ _ hm
    | exited =>
      exact ⟨fun a ha => hd a (hm ▸ ha), fun a b hab => hp a b (hm ▸ hab), ht⟩
  | chef i =>
    unfold step
    by_cases hi : i < NUM_CHEFS
    · simp only [hi, if_true]
      refine ⟨hd, hp, ?_⟩
      intro a b hab
      have htab : ∀ id rr pc, (chef_step id rr pc s.table).2 = s.table ∨
          (chef_step id rr pc s.table).2 = none := by
        intro id rr pc
        unfold chef_step
        cases pc with
        | top => split_ifs <;> exact Or.inl rfl
        | reading =>
          dsimp only
          split
          · exact Or.inl rfl
          · split_ifs <;> exact Or.inl rfl
        | cooking => exact Or.inr rfl
        | exited => exact Or.inl rfl
      have hab' : (chef_step (ingredients.getD i 0) s.remaining_rounds (s.chefs i)
          s.table).2 = some (a, b) := hab
      rcases htab (ingredients.getD i 0) s.remaining_rounds (s.chefs i) with h | h
      · exact ht a b (h ▸ hab')
      · rw [h] at hab'
        cases hab'
    · simp only [hi, if_false]
      exact ⟨hd, hp, ht⟩

/-- In every execution every pair found on the table consists of two
different ingredients, so exactly one chef passes the test of line 159 on
it. -/
theorem resident_pair_good (R : Int) (sched : List Label) (a b : Nat)
    (h : (run sched (init R)).table = some (a, b)) :
    GoodPair (a, b) ∧ ∃! id, id ∈ ingredients ∧ usable id a b = true := by
  have hinv : ∀ (sched : List Label) (s : State), PairsInv s → PairsInv (run sched s) := by
    intro sched
    induction sched with
    | nil => exact fun s hs => hs
    | cons l sched ih => exact fun s hs => ih _ (step_pairs s l hs)
  have hg := (hinv sched _ (init_pairs R)).2.2 a b h
  exact ⟨hg, good_pair_one_chef (a, b) hg⟩

/-! ### The number of rounds -/

theorem draw_ing2_mono (rand : Nat → Nat) (ing1 fuel fuel' pos : Nat) (res : Nat × Nat)
    (h : draw_ing2 rand ing1 fuel pos = some res) (hle : fuel ≤ fuel') :
    draw_ing2 rand ing1 fuel' pos = some res := by
  induction fuel generalizing fuel' pos with
  | zero => simp [draw_ing2] at h
  | succ fuel ih =>
    obtain ⟨g, rfl⟩ : ∃ g, fuel' = g + 1 := ⟨fuel' - 1, by omega⟩
    unfold draw_ing2 at h ⊢
    by_cases he : ing1 = rand pos % NUM_CHEFS
    · simp only [← he, if_true] at h ⊢
      exact ih g (pos + 1) h (by omega)
    · simp only [he, if_false] at h ⊢
      exact h

/-- The `do ... while` loop ends as soon as a draw differs from `ing1`. -/
theorem draw_ing2_total (rand : Nat → Nat) (ing1 d pos : Nat)
    (h : rand (pos + d) % NUM_CHEFS ≠ ing1) :
    ∃ res, draw_ing2 rand ing1 (d + 1) pos = some res := by
  induction d generalizing pos with
  | zero =>
    unfold draw_ing2
    have : ¬ ing1 = rand pos % NUM_CHEFS := fun e => h (by simpa using e.symm)
    simp [this]
  | succ d ih =>
    unfold draw_ing2
    by_cases he : ing1 = rand pos % NUM_CHEFS
    · simp only [← he, if_true]
      exact ih (pos + 1) (by rwa [show pos + 1 + d = pos + (d + 1) by omega])
    · simp [he]

theorem draw_pair_mono (rand : Nat → Nat) (fuel fuel' pos : Nat) (res : (Nat × Nat) × Nat)
    (h : draw_pair rand fuel pos = some res) (hle : fuel ≤ fuel') :
    draw_pair rand fuel' pos = some res := by
  unfold draw_pair at h ⊢
  dsimp only at h ⊢
  cases hd : draw_ing2 rand (rand pos % NUM_CHEFS) fuel (pos + 1) with
  | none => simp [hd] at h
  | some x =>
    rw [draw_ing2_mono rand _ fuel fuel' _ x hd hle]
    simpa [hd] using h

theorem draw_pair_total (rand : Nat → Nat)
    (hrand : ∀ i, ∃ j, i < j ∧ rand j % NUM_CHEFS ≠ rand i % NUM_CHEFS) (pos : Nat) :
    ∃ fuel res, draw_pair rand fuel pos = some res := by
  obtain ⟨j, hj, hne⟩ := hrand pos
  obtain ⟨d, rfl⟩ : ∃ d, j = pos + 1 + d := ⟨j - (pos + 1), by omega⟩
  obtain ⟨x, hx⟩ := draw_ing2_total rand (rand pos % NUM_CHEFS) d (pos + 1) hne
  exact ⟨d + 1, ((rand pos % NUM_CHEFS, x.1), x.2), by simp [draw_pair, hx]⟩

theorem master_chef_mono (rand : Nat → Nat) (fuel fuel' : Nat) (remaining_rounds : Int)
    (pos : Nat) (puts : List (Nat × Nat)) (e : Int)
    (h : master_chef rand fuel remaining_rounds pos = (puts, some e)) (hle : fuel ≤ fuel') :
    master_chef rand fuel' remaining_rounds pos = (puts, some e) := by
  induction fuel generalizing fuel' remaining_rounds pos puts with
  | zero => simp [master_chef] at h
  | succ fuel ih =>
    obtain ⟨g, rfl⟩ : ∃ g, fuel' = g + 1 := ⟨fuel' - 1, by omega⟩
    unfold master_chef at h ⊢
    by_cases hr : remaining_rounds ≤ 0
    · simpa [hr] using h
    · simp only [hr, if_false] at h ⊢
      cases hd : draw_pair rand fuel pos with
      | none => simp [hd] at h
      | some res =>
        rw [draw_pair_mono rand fuel g pos res hd (by omega)]
        simp only [hd, Prod.mk.injEq] at h
        obtain ⟨h1, h2⟩ := h
        have := ih g (remaining_rounds - 1) res.2
          (master_chef rand fuel (remaining_rounds - 1) res.2).1
          (by rw [← h2]) (by omega)
        simp only [this, Prod.mk.injEq]
        exact ⟨h1, trivial⟩

theorem master_chef_total (rand : Nat → Nat)
    (hrand : ∀ i, ∃ j, i < j ∧ rand j % NUM_CHEFS ≠ rand i % NUM_CHEFS) (R pos : Nat) :
    ∃ fuel puts, master_chef rand fuel (R : Int) pos = (puts, some 0) ∧ puts.length = R := by
  induction R generalizing pos with
  | zero => exact ⟨1, [], by simp [master_chef], rfl⟩
  | succ R ih =>
    obtain ⟨f1, res, hd⟩ := draw_pair_total rand hrand pos
    obtain ⟨f2, puts, hm, hlen⟩ := ih res.2
    refine ⟨max f1 f2 + 1, res.1 :: puts, ?_, by simp [hlen]⟩
    unfold master_chef
    have hr : ¬ (((R + 1 : Nat) : Int) ≤ 0) := by omega
    have hsub : ((R + 1 : Nat) : Int) - 1 = (R : Int) := by omega
    simp only [hr, if_false, hsub]
    rw [draw_pair_mono rand f1 _ pos res hd (le_max_left _ _)]
    simp only [master_chef_mono rand f2 _ _ _ puts 0 hm (le_max_right _ _)]

theorem draw_ing2_constant (fuel pos : Nat) : draw_ing2 (fun _ => 0) 0 fuel pos = none := by
  induction fuel generalizing pos with
  | zero => rfl
  | succ fuel ih =>
    unfold draw_ing2
    simpa using ih (pos + 1)

theorem master_chef_constant (fuel : Nat) :
    master_chef (fun _ => 0) fuel ROUNDS 0 = ([], none) := by
  cases fuel with
  | zero => rfl
  | succ fuel =>
    unfold master_chef
    have hd : draw_pair (fun _ => 0) fuel 0 = none := by
      unfold draw_pair
      have := draw_ing2_constant fuel (0 + 1)
      simp only [Nat.zero_mod] at this ⊢
      simp [this]
    simp [hd, ROUNDS]

/-- C5 (refutation): when every call of `rand()` returns 0 the first
`do ... while` loop of `master_chef` never ends: with 8 rounds and every
`put_on_table` call returning, the thread makes no `put_on_table` call and
never leaves its loop, whatever the number of iterations allowed. -/
theorem master_chef_constant_rand_never_exits :
    master_chef (fun _ => 0) 100 ROUNDS 0 = ([], none) ∧
      (¬ ∃ fuel, (master_chef (fun _ => 0) fuel ROUNDS 0).2 = some 0) ∧
      ¬ ∃ fuel, (master_chef (fun _ => 0) fuel ROUNDS 0).1.length = 8 := by
  refine ⟨master_chef_constant 100, ?_, ?_⟩
  · rintro ⟨fuel, h⟩
    rw [master_chef_constant fuel] at h
    cases h
  · rintro ⟨fuel, h⟩
    rw [master_chef_constant fuel] at h
    cases h

/-- C5 (amended): whenever the `rand()` sequence lets every `do ... while` loop end
(after each draw a later draw has a different residue modulo 3) and every
`put_on_table` call returns, `master_chef` started with
`remaining_rounds = R ≥ 0` leaves its loop (with enough fuel the model
returns), having called `put_on_table` exactly `R` times, with
`remaining_rounds == 0`. -/
theorem master_chef_makes_R_calls (rand : Nat → Nat)
    (hrand : ∀ i, ∃ j, i < j ∧ rand j % NUM_CHEFS ≠ rand i % NUM_CHEFS) (R : Nat) :
    ∃ fuel0, ∀ fuel, fuel0 ≤ fuel →
      (master_chef rand fuel (R : Int) 0).2 = some 0 ∧
        (master_chef rand fuel (R : Int) 0).1.length = R := by
  obtain ⟨f, puts, hm, hlen⟩ := master_chef_total rand hrand R 0
  refine ⟨f, fun fuel hle => ?_⟩
  rw [master_chef_mono rand f fuel _ _ puts 0 hm hle]
  exact ⟨rfl, hlen⟩

theorem master_chef_makes_R_calls_witness :
    (∀ i : Nat, ∃ j, i < j ∧ j % NUM_CHEFS ≠ i % NUM_CHEFS) ∧
      ∃ fuel0, ∀ fuel, fuel0 ≤ fuel →
        (master_chef (fun k => k) fuel ((8 : Nat) : Int) 0).2 = some 0 ∧
          (master_chef (fun k => k) fuel ((8 : Nat) : Int) 0).1.length = 8 :=
  ⟨fun i => ⟨i + 1, by omega, by simp only [NUM_CHEFS]; omega⟩,
    master_chef_makes_R_calls (fun k => k)
      (fun i => ⟨i + 1, by omega, by simp only [NUM_CHEFS]; omega⟩) 8⟩

/-! ### The last round -/

/-- C6 (evaluation of the code): in the execution of the program with 8
rounds in which every pair is `(0, 1)`, the eighth decrement brings
`remaining_rounds` to 0 while the table is empty and `put_on_table(0, 1)` is
still to run; the next step of the master chef writes that pair, in a state
where `remaining_rounds == 0`. -/
theorem last_pair_written_at_zero_rounds :
    (run last_round_started (init ROUNDS)).remaining_rounds = 0 ∧
      (run last_round_started (init ROUNDS)).table = none ∧
      (run last_round_started (init ROUNDS)).master = MasterPc.placing 0 1 ∧
      (step (run last_round_started (init ROUNDS)) (Label.master 0)).table = some (0, 1) ∧
      (step (run last_round_started (init ROUNDS)) (Label.master 0)).remaining_rounds = 0 := by
  refine ⟨rfl, rfl, rfl, rfl, rfl⟩

theorem step_stuck (s : State) (l : Label) (h : Stuck s) : Stuck (step s l) := by
  obtain ⟨ht, hr, h2, h0, h1, hm⟩ := h
  cases l with
  | master r =>
    rcases hm with hm | hm <;>
      simp [step, master_step, put_on_table, hm, hr, Stuck, ht, h2, h0, h1]
  | chef i =>
    unfold step
    by_cases hi : i < NUM_CHEFS
    · have h3 : i = 0 ∨ i = 1 ∨ i = 2 := by simp only [NUM_CHEFS] at hi; omega
      rcases h3 with rfl | rfl | rfl
      · rcases h0 with h0 | h0 <;>
          simp [Stuck, chef_step, read_table, clear_table, set_pc, ht, hr, h2, h0, h1, hm, NUM_CHEFS, ingredients,
            usable, NOODLES]
      · rcases h1 with h1 | h1 <;>
          simp [Stuck, chef_step, read_table, clear_table, set_pc, ht, hr, h2, h0, h1, hm, NUM_CHEFS, ingredients,
            usable, WATER]
      · simp [Stuck, chef_step, read_table, clear_table, set_pc, ht, hr, h2, h0, h1, hm, NUM_CHEFS]
    · simp only [hi, if_false]
      exact ⟨ht, hr, h2, h0, h1, hm⟩

theorem run_stuck (sched : List Label) (s : State) (h : Stuck s) : Stuck (run sched s) := by
  induction sched generalizing s with
  | nil => exact h
  | cons l sched ih => exact ih _ (step_stuck s l h)

/-- C8 (evaluation of the code): in the program with 8 rounds, after the
eighth decrement and before the eighth pair is written, chef 2 finds
`remaining_rounds <= 0` and no table and leaves its loop; the master chef then
places the pair `(0, 1)`, which only chef 2 could clear.  From then on, in
every continuation, the pair stays on the table and chefs 0 and 1 never leave
their loops. -/
theorem clearer_exits_before_last_pair :
    (run (last_round_started ++ [Label.chef 2, Label.master 0]) (init ROUNDS)).table =
        some (0, 1) ∧
      (run (last_round_started ++ [Label.chef 2, Label.master 0]) (init ROUNDS)).chefs 2 =
        ChefPc.exited ∧
      usable 2 0 1 = true ∧ usable 0 0 1 = false ∧ usable 1 0 1 = false ∧
      ∀ cont,
        (run (last_round_started ++ [Label.chef 2, Label.master 0] ++ cont)
            (init ROUNDS)).table = some (0, 1) ∧
          (run (last_round_started ++ [Label.chef 2, Label.master 0] ++ cont)
            (init ROUNDS)).chefs 0 ≠ ChefPc.exited ∧
          (run (last_round_started ++ [Label.chef 2, Label.master 0] ++ cont)
            (init ROUNDS)).chefs 1 ≠ ChefPc.exited := by
  have hs : Stuck (run (last_round_started ++ [Label.chef 2, Label.master 0]) (init ROUNDS)) :=
    ⟨rfl, rfl, rfl, Or.inl rfl, Or.inl rfl, Or.inl rfl⟩
  refine ⟨rfl, rfl, rfl, rfl, rfl, fun cont => ?_⟩
  have hrun : run (last_round_started ++ [Label.chef 2, Label.master 0] ++ cont) (init ROUNDS) =
      run cont (run (last_round_started ++ [Label.chef 2, Label.master 0]) (init ROUNDS)) := by
    simp only [run, List.foldl_append]
  rw [hrun]
  obtain ⟨ht, _, _, h0, h1, _⟩ := run_stuck cont _ hs
  refine ⟨ht, ?_, ?_⟩
  · rcases h0 with h | h <;> simp [h]
  · rcases h1 with h | h <;> simp [h]

end Chef
